import Mathlib

/-
  Verification model of `src/services/wpThemeDetector.ts` (Wp-reveal).

  JavaScript strings are embedded as `List Char` (called `Str` below).  The
  mutable module-level `detectionCache` (a JS `Map`) is embedded as an
  association list in insertion order, passed explicitly through the
  functions that read or write it.  `Date.now()` is passed explicitly as a
  `Nat` parameter.  Network fetches are oracles: functions from the attempt
  number to `Except Str Str` (error message or body).  Regular-expression
  matching is embedded by executable backtracking matchers that follow the
  JS regex semantics (leftmost match, greedy/lazy quantifier priority).
-/

namespace WPTD

abbrev Str := List Char

/-! ## Data model: ThemeInfo / DetectionResult (interfaces at the top of the file)

`Partial<ThemeInfo>` is modelled with every field optional; the required
`isWordPress : boolean` of the full interface is also an `Option` here because
the code only ever materialises partial records (the final `result.data` is a
spread of the partial record with `isWordPress: true`). -/

structure ChildTheme where
  name : Str
  parent : Str
deriving DecidableEq, Repr, Inhabited

structure PartialThemeInfo where
  name : Option Str := none
  author : Option Str := none
  version : Option Str := none
  description : Option Str := none
  uri : Option Str := none
  isWordPress : Option Bool := none
  themeUrl : Option Str := none
  detectionMethod : Option Str := none
  plugins : Option (List Str) := none
  childTheme : Option ChildTheme := none
deriving DecidableEq, Repr, Inhabited

structure DetectionResult where
  success : Bool
  data : Option PartialThemeInfo := none
  error : Option Str := none
deriving DecidableEq, Repr, Inhabited

/-- JS truthiness of an optional string: `undefined` and `""` are falsy. -/
def jsFalsyStr : Option Str → Bool
  | none => true
  | some s => s.isEmpty

/-! ## The result cache (module-level `detectionCache` Map) -/

structure CacheEntry where
  result : DetectionResult
  timestamp : Nat
deriving DecidableEq, Repr, Inhabited

/-- JS `Map` in insertion order: oldest entry first. -/
abbrev Cache := List (Str × CacheEntry)

def CACHE_DURATION : Nat := 5 * 60 * 1000

def MAX_RETRIES : Nat := 2

/-- `Map.prototype.get` (keys are compared by value: strings). -/
def mapGet (m : Cache) (k : Str) : Option CacheEntry :=
  match m with
  | [] => none
  | (k', v) :: rest => if k' = k then some v else mapGet rest k

/-- `Map.prototype.delete`: removes the entry for `k` (keys are unique in a
real `Map`, so removing the first occurrence is exact). -/
def mapDelete (m : Cache) (k : Str) : Cache :=
  match m with
  | [] => []
  | (k', v) :: rest => if k' = k then rest else (k', v) :: mapDelete rest k

/-- `Map.prototype.set`: overwrites in place (keeping insertion position) if
the key is present, otherwise appends as the newest entry. -/
def mapSet (m : Cache) (k : Str) (v : CacheEntry) : Cache :=
  match m with
  | [] => [(k, v)]
  | (k', v') :: rest => if k' = k then (k, v) :: rest else (k', v') :: mapSet rest k v

/-! ## URL normalization -/

/-- `normalizeUrl` (lines 297-304): prepend `https://` when no scheme, then
`url.replace(/\/$/, '').split('#')[0].split('?')[0]`. -/
def withScheme (url : Str) : Str :=
  if "http://".toList.isPrefixOf url ∨ "https://".toList.isPrefixOf url then url
  else "https://".toList ++ url

/-- `url.replace(/\/$/, '')`: removes one trailing slash, if any. -/
def stripTrailingSlash (s : Str) : Str :=
  if s.getLast? = some '/' then s.dropLast else s

/-- `s.split(c)[0]`: the part of `s` before the first occurrence of `c`. -/
def takeBefore (c : Char) : Str → Str
  | [] => []
  | x :: rest => if x = c then [] else x :: takeBefore c rest

def normalizeUrl (url : Str) : Str :=
  takeBefore '?' (takeBefore '#' (stripTrailingSlash (withScheme url)))

def getCacheKey (url : Str) : Str :=
  normalizeUrl url

/-! ## Cache read / write (lines 310-337) -/

/-- `getFromCache` (lines 310-323).  Returns the looked-up result (if fresh)
together with the cache state after the lazy deletion of an expired entry. -/
def getFromCache (cache : Cache) (now : Nat) (url : Str) : Option DetectionResult × Cache :=
  let cacheKey := getCacheKey url
  match mapGet cache cacheKey with
  | some cached =>
      if now - cached.timestamp < CACHE_DURATION then (some cached.result, cache)
      else (none, mapDelete cache cacheKey)
  | none => (none, cache)

/-- `setCache` (lines 325-337): insert/overwrite with the current timestamp,
then if the size exceeds 100 delete the insertion-oldest key
(`Array.from(detectionCache.keys())[0]`). -/
def setCache (cache : Cache) (now : Nat) (url : Str) (result : DetectionResult) : Cache :=
  let cacheKey := getCacheKey url
  let m := mapSet cache cacheKey { result := result, timestamp := now }
  if m.length > 100 then
    match m with
    | [] => []           -- unreachable: m has at least the entry just set
    | (oldestKey, _) :: _ => mapDelete m oldestKey
  else m

/-! ## Regular-expression embedding

Each regex in the source is embedded as an executable backtracking matcher
over `Str`.  The combinators below reproduce the JS semantics: `scanOpt`
gives the leftmost match, `greedyThenAcc` a greedy character-class star
(prefer consuming more, backtrack to less), `lazyThenAcc` a lazy star
(prefer consuming less), `boundedLazyThenAcc` a lazy bounded quantifier
`{0,n}?`.  The accumulator carries the consumed original characters so that
capture groups return the matched text. -/

/-- ASCII lower-casing, for the `i` regex flag. -/
def lowerChar (c : Char) : Char :=
  if 'A' ≤ c ∧ c ≤ 'Z' then Char.ofNat (c.toNat + 32) else c

/-- JS `\\s`: whitespace — ASCII blanks plus the Unicode space characters JS
includes (NBSP, OGHAM SPACE, U+2000-U+200A, LS, PS, NNBSP, MMSP, IDEOGRAPHIC
SPACE, BOM), written by code point. -/
def isJsWs (c : Char) : Bool :=
  c = ' ' ∨ c = '\t' ∨ c = '\n' ∨ c = '\r' ∨ c = '\x0b' ∨ c = '\x0c' ∨
  c.toNat = 0xa0 ∨ c.toNat = 0x1680 ∨ (0x2000 ≤ c.toNat ∧ c.toNat ≤ 0x200a) ∨
  c.toNat = 0x2028 ∨ c.toNat = 0x2029 ∨ c.toNat = 0x202f ∨ c.toNat = 0x205f ∨
  c.toNat = 0x3000 ∨ c.toNat = 0xfeff

/-- JS `.` (no `s` flag): any character except a line terminator
(LF, CR, LS U+2028, PS U+2029). -/
def isDotChar (c : Char) : Bool :=
  ¬ (c = '\n' ∨ c = '\r' ∨ c.toNat = 0x2028 ∨ c.toNat = 0x2029)

/-- Case-sensitive literal: if `lit` is a prefix of `s`, return
`(consumed, rest)`. -/
def matchLit (lit s : Str) : Option (Str × Str) :=
  match lit, s with
  | [], s => some ([], s)
  | _ :: _, [] => none
  | l :: ls, c :: cs =>
      if l = c then
        match matchLit ls cs with
        | some (a, r) => some (c :: a, r)
        | none => none
      else none

/-- Case-insensitive literal (regex `i` flag): consumed text keeps the
original casing of `s`. -/
def matchLitCI (lit s : Str) : Option (Str × Str) :=
  match lit, s with
  | [], s => some ([], s)
  | _ :: _, [] => none
  | l :: ls, c :: cs =>
      if lowerChar l = lowerChar c then
        match matchLitCI ls cs with
        | some (a, r) => some (c :: a, r)
        | none => none
      else none

/-- Leftmost match: try the continuation at every start position, earliest
first (the whole-regex scan of `String.prototype.match` / `exec`). -/
def scanOpt {α : Type} (f : Str → Option α) : Str → Option α
  | [] => f []
  | c :: rest =>
      match f (c :: rest) with
      | some r => some r
      | none => scanOpt f rest

/-- Greedy class star `cls*` followed by continuation `k consumed rest`:
prefer consuming more characters, backtracking to fewer. -/
def greedyThenAcc {α : Type} (cls : Char → Bool) (k : Str → Str → Option α) :
    Str → Str → Option α
  | acc, [] => k acc []
  | acc, c :: rest =>
      if cls c then
        match greedyThenAcc cls k (acc ++ [c]) rest with
        | some r => some r
        | none => k acc (c :: rest)
      else k acc (c :: rest)

/-- Lazy class star `cls*?`: prefer consuming fewer characters. -/
def lazyThenAcc {α : Type} (cls : Char → Bool) (k : Str → Str → Option α) :
    Str → Str → Option α
  | acc, [] => k acc []
  | acc, c :: rest =>
      match k acc (c :: rest) with
      | some r => some r
      | none => if cls c then lazyThenAcc cls k (acc ++ [c]) rest else none

/-- Lazy bounded quantifier `cls{0,bound}?`. -/
def boundedLazyThenAcc {α : Type} (cls : Char → Bool) (k : Str → Str → Option α) :
    Nat → Str → Str → Option α
  | 0, acc, s => k acc s
  | _ + 1, acc, [] => k acc []
  | bound + 1, acc, c :: rest =>
      match k acc (c :: rest) with
      | some r => some r
      | none => if cls c then boundedLazyThenAcc cls k bound (acc ++ [c]) rest else none

/-- Maximal run of characters satisfying `p` (a possessive-style stand-in
for a greedy `[..]+`/`[..]*` whose class excludes the character that the
pattern requires next, so no backtracking into the run is ever possible). -/
def takeClassRun (p : Char → Bool) (s : Str) : Str × Str :=
  match s with
  | [] => ([], [])
  | c :: rest =>
      if p c then
        let (run, r) := takeClassRun p rest
        (c :: run, r)
      else ([], c :: rest)

/-- `String.prototype.includes` (case-sensitive substring test). -/
def containsSubstr (s sub : Str) : Bool :=
  match s with
  | [] => sub.isEmpty
  | c :: rest => (matchLit sub (c :: rest)).isSome ∨ containsSubstr rest sub

/-- `String.prototype.trim`. -/
def jsTrim (s : Str) : Str :=
  ((s.dropWhile isJsWs).reverse.dropWhile isJsWs).reverse

/-! ## Metadata extractor (`extractThemeInfo`, lines 143-177) -/

/-- The header regex `/\/\*\s*([\s\S]{0,2000}?)\s*\*\//` tried at one start
position: literal `/*`, greedy `\s*`, lazy bounded body (the capture),
greedy `\s*`, literal `*/`. -/
def headerTryAt (s : Str) : Option Str :=
  match matchLit "/*".toList s with
  | none => none
  | some (_, s1) =>
      greedyThenAcc isJsWs (fun _ t1 =>
        boundedLazyThenAcc (fun _ => true) (fun body t2 =>
          greedyThenAcc isJsWs (fun _ t3 =>
            match matchLit "*/".toList t3 with
            | some _ => some body
            | none => none) [] t2) 2000 [] t1) [] s1

/-- `cssContent.match(/\/\*\s*([\s\S]{0,2000}?)\s*\*\//)`, group 1. -/
def headerMatch (cssContent : Str) : Option Str :=
  scanOpt headerTryAt cssContent

/-- One field pattern `/Key:\s*(.+)/i` tried at one start position:
case-insensitive literal, greedy `\s*`, then a greedy non-empty run of
`.`-characters (nothing follows the capture in the pattern). -/
def fieldTryAt (key : Str) (s : Str) : Option Str :=
  match matchLitCI key s with
  | none => none
  | some (_, s1) =>
      greedyThenAcc isJsWs (fun _ t =>
        match takeClassRun isDotChar t with
        | ([], _) => none
        | (run, _) => some run) [] s1

/-- `header.match(/Key:\s*(.+)/i)`, group 1. -/
def fieldMatch (key : Str) (header : Str) : Option Str :=
  scanOpt (fieldTryAt key) header

/-- JS `v || dflt` on an optional string field. -/
def jsOrElse (v : Option Str) (dflt : Str) : Str :=
  match v with
  | some s => if s.isEmpty then dflt else s
  | none => dflt

/-- `extractThemeInfo` (lines 143-177): find the first header comment, then
apply the field patterns in the order of the `patterns` object
(name, author, version, description, uri, template); each hit stores
`match[1].trim()`; a `Template:` hit stores a child-theme record whose name
falls back to `'Unknown Child Theme'`. -/
def extractThemeInfo (cssContent : Str) : PartialThemeInfo :=
  match headerMatch cssContent with
  | none => {}
  | some header =>
      let t : PartialThemeInfo := {}
      let t := match fieldMatch "Theme Name:".toList header with
        | some v => { t with name := some (jsTrim v) }
        | none => t
      let t := match fieldMatch "Author:".toList header with
        | some v => { t with author := some (jsTrim v) }
        | none => t
      let t := match fieldMatch "Version:".toList header with
        | some v => { t with version := some (jsTrim v) }
        | none => t
      let t := match fieldMatch "Description:".toList header with
        | some v => { t with description := some (jsTrim v) }
        | none => t
      let t := match fieldMatch "Theme URI:".toList header with
        | some v => { t with uri := some (jsTrim v) }
        | none => t
      let t := match fieldMatch "Template:".toList header with
        | some v =>
            let child : ChildTheme :=
              { name := jsOrElse t.name "Unknown Child Theme".toList, parent := jsTrim v }
            { t with childTheme := some child }
        | none => t
      t

/-! ## Path scanner (`detectPlugins` lines 179-194, `extractThemeFromPaths`
lines 196-211) -/

/-- The path-segment class `[^/'"?\s]`. -/
def isPathSegChar (c : Char) : Bool :=
  ¬ (c = '/' ∨ c = '\'' ∨ c = '"' ∨ c = '?' ∨ isJsWs c)

/-- One attempt of `marker([^/'"?\s]+)` (case-insensitive) at a position:
the class excludes `/`, quotes, `?` and whitespace, and nothing follows the
capture, so the capture is the maximal non-empty run. -/
def trySegAt (marker : Str) (s : Str) : Option (Str × Str) :=
  match matchLitCI marker s with
  | none => none
  | some (_, s1) =>
      match takeClassRun isPathSegChar s1 with
      | ([], _) => none
      | (rc :: rtl, rest) => some (rc :: rtl, rest)

/-- `exec` with the `g` flag: leftmost match at or after the current
position; returns the capture and the text after the whole match
(the new `lastIndex`). -/
def findNextSeg (marker : Str) : Str → Option (Str × Str)
  | [] => none
  | c :: rest =>
      match trySegAt marker (c :: rest) with
      | some r => some r
      | none => findNextSeg marker rest

/-- The successive global matches of `marker([^/'"?\s]+)`, in order (fuel
`s.length + 1` always suffices: every match consumes at least one
character). -/
def segMatches (marker : Str) : Nat → Str → List Str
  | 0, _ => []
  | fuel + 1, s =>
      match findNextSeg marker s with
      | none => []
      | some (nm, rest) => nm :: segMatches marker fuel rest

def pluginExcluded : List Str := ["index.php".toList, "readme.txt".toList]

def themeExcluded : List Str :=
  ["plugins".toList, "uploads".toList, "cache".toList, "mu-plugins".toList]

/-- One loop body: `if (name && !excluded.includes(name)) set.add(name)`
(the `Set` ignores names already present, keeping first-occurrence order). -/
def dedupStep (excluded : List Str) (acc : List Str) (nm : Str) : List Str :=
  if nm ≠ [] ∧ nm ∉ excluded ∧ nm ∉ acc then acc ++ [nm] else acc

/-- The loop body guarded by the `set.size < cap` loop condition. -/
def cappedStep (cap : Nat) (excluded : List Str) (acc : List Str) (nm : Str) : List Str :=
  if acc.length < cap then dedupStep excluded acc nm else acc

/-- Deduplicated first-occurrence-order list of matches (no size cap). -/
def dedupFirst (excluded : List Str) (ms : List Str) : List Str :=
  ms.foldl (dedupStep excluded) []

/-- The `while ((match = re.exec(html)) !== null && set.size < cap)` loop. -/
def segLoop (marker : Str) (cap : Nat) (excluded : List Str) :
    Nat → Str → List Str → List Str
  | 0, _, acc => acc
  | fuel + 1, s, acc =>
      match findNextSeg marker s with
      | none => acc
      | some (nm, rest) =>
          if acc.length < cap then
            segLoop marker cap excluded fuel rest (dedupStep excluded acc nm)
          else acc

/-- `detectPlugins` (lines 179-194): scan for `wp-content/plugins/` segments
(set capped during the loop at 15), then `slice(0, 10)`. -/
def detectPlugins (htmlContent : Str) : List Str :=
  (segLoop "wp-content/plugins/".toList 15 pluginExcluded
    (htmlContent.length + 1) htmlContent []).take 10

/-- `extractThemeFromPaths` (lines 196-211): scan for
`/wp-content/themes/` segments, set capped during the loop at 5. -/
def extractThemeFromPaths (htmlContent : Str) : List Str :=
  segLoop "/wp-content/themes/".toList 5 themeExcluded
    (htmlContent.length + 1) htmlContent []

/-! ## WordPress presence check (`quickWordPressCheck`, lines 213-223) -/

def quickIndicators : List Str :=
  ["/wp-content/".toList, "wp-includes".toList, "wp-json".toList, "wp_head".toList]

def quickWordPressCheck (htmlContent : Str) : Bool :=
  quickIndicators.any (fun indicator => containsSubstr htmlContent indicator)

/-! ## Detection cascade (`advancedThemeDetection`, lines 225-285) -/

def isQuoteChar (c : Char) : Bool := c = '\'' ∨ c = '"'

/-- The theme-name class `[^/'"]`. -/
def isThemeSegChar (c : Char) : Bool := ¬ (c = '/' ∨ isQuoteChar c)

/-- The class `[^'"]`. -/
def isNotQuote (c : Char) : Bool := ¬ isQuoteChar c

/-- Method-1 pattern
`/href=['"](.*?\/wp-content\/themes\/([^/'"]+)\/style\.css[^'"]*)['"]/i`:
tail after the lazy `.*?` — literal path, the theme-name capture (maximal
non-empty run; the class excludes the `/` the pattern requires next),
`/style.css`, greedy `[^'"]*`, closing quote.  Returns
`(themeStyleUrl, themeName)` = groups 1 and 2. -/
def m1Tail (acc t : Str) : Option (Str × Str) :=
  match matchLitCI "/wp-content/themes/".toList t with
  | none => none
  | some (lit1, t1) =>
      match takeClassRun isThemeSegChar t1 with
      | ([], _) => none
      | (nmc :: nmtl, t2) =>
          match matchLitCI "/style.css".toList t2 with
          | none => none
          | some (lit2, t3) =>
              let (tailRun, t4) := takeClassRun isNotQuote t3
              match t4 with
              | q :: _ =>
                  if isQuoteChar q then
                    some (acc ++ lit1 ++ (nmc :: nmtl) ++ lit2 ++ tailRun, nmc :: nmtl)
                  else none
              | [] => none

/-- Method-1 pattern at one start position: `href=`, one quote, then the
lazy `.*?` (no line terminators) feeding `m1Tail` with the group-1 text
accumulated so far. -/
def m1TryAt (s : Str) : Option (Str × Str) :=
  match matchLitCI "href=".toList s with
  | none => none
  | some (_, s1) =>
      match s1 with
      | q :: s2 => if isQuoteChar q then lazyThenAcc isDotChar m1Tail [] s2 else none
      | [] => none

/-- `htmlContent.match(/href=['"](.*?\/wp-content\/themes\/([^/'"]+)\/style\.css[^'"]*)['"]/i)`,
groups 1 and 2. -/
def method1Match (htmlContent : Str) : Option (Str × Str) :=
  scanOpt m1TryAt htmlContent

/-- Split `run` as `before ++ lit' ++ after` where `lit'` matches `lit`
case-insensitively, preferring the longest `before` (the greedy choice for
a class-star that precedes the literal and whose class the literal's
characters also satisfy). -/
def lastSplitWithLit (lit : Str) : Str → Option (Str × Str × Str)
  | [] =>
      match matchLitCI lit [] with
      | some (l, a) => some ([], l, a)
      | none => none
  | c :: rest =>
      match lastSplitWithLit lit rest with
      | some (b, l, a) => some (c :: b, l, a)
      | none =>
          match matchLitCI lit (c :: rest) with
          | some (l, a) => some ([], l, a)
          | none => none

/-- Method-3 pattern
`/href=['"](.*?\/wp-content\/themes\/([^/'"]+)\/[^'"]*\.css[^'"]*)['"]/i`:
tail after the lazy `.*?`.  After the name and its `/`, both `[^'"]*` runs
and the `.css` literal must lie inside the maximal quote-free run, with the
greedy first run picking the last `.css` occurrence, and the closing quote
immediately after the run. -/
def m3Tail (acc t : Str) : Option (Str × Str) :=
  match matchLitCI "/wp-content/themes/".toList t with
  | none => none
  | some (lit1, t1) =>
      match takeClassRun isThemeSegChar t1 with
      | ([], _) => none
      | (nmc :: nmtl, t2) =>
          match t2 with
          | c :: t3 =>
              if c = '/' then
                let (run, t4) := takeClassRun isNotQuote t3
                match lastSplitWithLit ".css".toList run with
                | none => none
                | some (before, cssLit, after) =>
                    match t4 with
                    | q :: _ =>
                        if isQuoteChar q then
                          some (acc ++ lit1 ++ (nmc :: nmtl) ++ [c] ++ before ++ cssLit ++ after,
                            nmc :: nmtl)
                        else none
                    | [] => none
              else none
          | [] => none

def m3TryAt (s : Str) : Option (Str × Str) :=
  match matchLitCI "href=".toList s with
  | none => none
  | some (_, s1) =>
      match s1 with
      | q :: s2 => if isQuoteChar q then lazyThenAcc isDotChar m3Tail [] s2 else none
      | [] => none

/-- `htmlContent.match(/href=['"](.*?\/wp-content\/themes\/([^/'"]+)\/[^'"]*\.css[^'"]*)['"]/i)`,
groups 1 and 2. -/
def method3Match (htmlContent : Str) : Option (Str × Str) :=
  scanOpt m3TryAt htmlContent

/-- The body-class capture class `[^'">\s]`. -/
def isBodyClassChar (c : Char) : Bool :=
  ¬ (isQuoteChar c ∨ c = '>' ∨ isJsWs c)

/-- Method-4 pattern `/<body[^>]*class=['"]*[^'"]*theme-([^'">\s]+)/i`
at one start position: `<body`, greedy `[^>]*`, `class=`, greedy quote run,
greedy `[^'"]*`, `theme-`, then the capture (maximal non-empty run). -/
def m4TryAt (s : Str) : Option Str :=
  match matchLitCI "<body".toList s with
  | none => none
  | some (_, s1) =>
      greedyThenAcc (fun c => ¬ c = '>') (fun _ t =>
        match matchLitCI "class=".toList t with
        | none => none
        | some (_, t1) =>
            greedyThenAcc isQuoteChar (fun _ t2 =>
              greedyThenAcc isNotQuote (fun _ t3 =>
                match matchLitCI "theme-".toList t3 with
                | none => none
                | some (_, t4) =>
                    match takeClassRun isBodyClassChar t4 with
                    | ([], _) => none
                    | (nmc :: nmtl, _) => some (nmc :: nmtl)) [] t2) [] t1) [] s1

/-- `htmlContent.match(/<body[^>]*class=['"]*[^'"]*theme-([^'">\s]+)/i)`, group 1. -/
def method4Match (htmlContent : Str) : Option Str :=
  scanOpt m4TryAt htmlContent

/-- `themeNames.reduce(...)`: occurrence counts keyed in first-occurrence
order (the enumeration order of the object's keys). -/
def bumpCount (counts : List (Str × Nat)) (nm : Str) : List (Str × Nat) :=
  match counts with
  | [] => [(nm, 1)]
  | (k, n) :: rest => if k = nm then (k, n + 1) :: rest else (k, n) :: bumpCount rest nm

def themeCounts (names : List Str) : List (Str × Nat) :=
  names.foldl bumpCount []

/-- Stable insertion into a list sorted by descending count: the new element
goes before the first strictly smaller count, after equal counts seen so
far. -/
def insertByCountDesc (x : Str × Nat) : List (Str × Nat) → List (Str × Nat)
  | [] => [x]
  | y :: ys => if y.2 > x.2 then y :: insertByCountDesc x ys else x :: y :: ys

/-- `Object.entries(themeCounts).sort(([,a],[,b]) => b - a)`: JS `sort` is
stable, modelled by a stable insertion sort (descending by count). -/
def sortByCountDesc : List (Str × Nat) → List (Str × Nat)
  | [] => []
  | x :: xs => insertByCountDesc x (sortByCountDesc xs)

def directCssLabel : Str := "Direct CSS".toList
def pathAnalysisLabel : Str := "Path Analysis".toList
def cssPatternLabel : Str := "CSS Pattern".toList
def bodyClassLabel : Str := "Body Class".toList

/-- `detectionMethods.join(', ')`. -/
def joinComma : List Str → Str
  | [] => []
  | [x] => x
  | x :: y :: xs => x ++ ", ".toList ++ joinComma (y :: xs)

/-- `advancedThemeDetection` (lines 225-285) without the fire-and-forget
stylesheet enrichment (see `detectTheme`): the four detection methods,
methods 2-4 each guarded by `if (!themeInfo.name)`, returning the pushed
method labels together with the accumulated partial record. -/
def advancedThemeDetectionCore (siteUrl htmlContent : Str) :
    List Str × PartialThemeInfo :=
  let start : List Str × PartialThemeInfo := ([], {})
  -- Method 1: direct CSS detection
  let step1 :=
    match method1Match htmlContent with
    | some (themeStyleUrl, themeName) =>
        (start.1 ++ [directCssLabel],
         { start.2 with name := some themeName, themeUrl := some themeStyleUrl })
    | none => start
  -- Method 2: theme folder path extraction (if CSS method failed)
  let step2 :=
    if jsFalsyStr step1.2.name then
      let themeNames := extractThemeFromPaths htmlContent
      if themeNames.length > 0 then
        let sorted := sortByCountDesc (themeCounts themeNames)
        match sorted.head? with
        | some mostCommonTheme =>
            (step1.1 ++ [pathAnalysisLabel],
             { step1.2 with
                 name := some mostCommonTheme.1,
                 themeUrl := some (siteUrl ++ "/wp-content/themes/".toList ++
                   mostCommonTheme.1 ++ "/style.css".toList) })
        | none => (step1.1 ++ [pathAnalysisLabel], step1.2)
      else step1
    else step1
  -- Method 3: alternative CSS patterns
  let step3 :=
    if jsFalsyStr step2.2.name then
      match method3Match htmlContent with
      | some (cssUrl, cssName) =>
          (step2.1 ++ [cssPatternLabel],
           { step2.2 with name := some cssName, themeUrl := some cssUrl })
      | none => step2
    else step2
  -- Method 4: body class detection
  let step4 :=
    if jsFalsyStr step3.2.name then
      match method4Match htmlContent with
      | some bodyName => (step3.1 ++ [bodyClassLabel], { step3.2 with name := some bodyName })
      | none => step3
    else step3
  (step4.1, { step4.2 with detectionMethod := some (joinComma step4.1) })

def advancedThemeDetection (siteUrl htmlContent : Str) : PartialThemeInfo :=
  (advancedThemeDetectionCore siteUrl htmlContent).2

/-! ## Stylesheet-detail enrichment (`fetchThemeDetails`, lines 287-295) -/

/-- `Object.assign(t, u)`: a field present on `u` overwrites `t`'s. -/
def mergeField {α : Type} (tv uv : Option α) : Option α :=
  match uv with
  | some v => some v
  | none => tv

def objectAssign (t u : PartialThemeInfo) : PartialThemeInfo :=
  { name := mergeField t.name u.name,
    author := mergeField t.author u.author,
    version := mergeField t.version u.version,
    description := mergeField t.description u.description,
    uri := mergeField t.uri u.uri,
    isWordPress := mergeField t.isWordPress u.isWordPress,
    themeUrl := mergeField t.themeUrl u.themeUrl,
    detectionMethod := mergeField t.detectionMethod u.detectionMethod,
    plugins := mergeField t.plugins u.plugins,
    childTheme := mergeField t.childTheme u.childTheme }

/-- `fetchThemeDetails` (lines 287-295): fetch the stylesheet and merge the
extracted metadata into the record; any failure is swallowed (`catch {}`),
leaving the record unchanged. -/
def fetchThemeDetails (cssFetch : Except Str Str) (themeInfo : PartialThemeInfo) :
    PartialThemeInfo :=
  match cssFetch with
  | .error _ => themeInfo
  | .ok cssContent => objectAssign themeInfo (extractThemeInfo cssContent)

/-! ## Top-level service (`detectTheme`, lines 339-416) -/

/-- The retry loop of lines 350-365: `fetch attempt` is the outcome of the
`fetchWithCors` call on that attempt; on failure with retries remaining,
wait `1000 * retryCount` ms (recorded in the returned delay list) and
re-attempt; once `retryCount` exceeds `MAX_RETRIES`, re-throw the last
error.  Called with `remaining = MAX_RETRIES + 1` total attempts; the
`remaining = 0` base case is never reached from that entry. -/
def fetchWithRetries (fetch : Nat → Except Str Str) :
    Nat → Nat → Except Str Str × List Nat
  | _, 0 => (.error [], [])
  | attempt, remaining + 1 =>
      match fetch attempt with
      | .ok htmlContent => (.ok htmlContent, [])
      | .error e =>
          if remaining = 0 then (.error e, [])
          else
            let next := fetchWithRetries fetch (attempt + 1) remaining
            (next.1, 1000 * (attempt + 1) :: next.2)

def notWordPressMsg : Str :=
  "This doesn't appear to be a WordPress site. No WordPress indicators found.".toList

def themeNotIdentifiedMsg : Str :=
  "WordPress site detected but theme could not be identified. The theme may be heavily customized.".toList

/-- The cascade record as seen by the `if (!themeInfo.name)` check of
line 382: the fire-and-forget enrichment started by method 1 may have
landed by then (`enrichBeforeReturn = true`) or not. -/
def resolvedThemeInfo (cssFetch : Except Str Str) (enrichBeforeReturn : Bool)
    (normalizedUrl htmlContent : Str) : PartialThemeInfo :=
  let themeInfo0 := advancedThemeDetection normalizedUrl htmlContent
  if (method1Match htmlContent).isSome ∧ enrichBeforeReturn then
    fetchThemeDetails cssFetch themeInfo0
  else themeInfo0

/-- `detectTheme` (lines 339-416).  `fetch n` is the outcome of the n-th
attempt of `fetchWithCors(normalizedUrl)`; `cssFetch` the outcome of the
fire-and-forget stylesheet fetch started by cascade method 1, and
`enrichBeforeReturn` resolves the race of that non-awaited task: `true`
linearizes its completion at the await point before the
`if (!themeInfo.name)` check, `false` after the result object has been
built from a spread copy (in which case the late mutation of the local
record is not observable in the returned result).  Returns the result, the
cache state after the call, and the list of backoff delays waited. -/
def detectTheme (fetch : Nat → Except Str Str) (cssFetch : Except Str Str)
    (enrichBeforeReturn : Bool) (cache : Cache) (now : Nat) (siteUrl : Str) :
    DetectionResult × Cache × List Nat :=
  let normalizedUrl := normalizeUrl siteUrl
  match getFromCache cache now normalizedUrl with
  | (some cachedResult, cache1) => (cachedResult, cache1, [])
  | (none, cache1) =>
      match fetchWithRetries fetch 0 (MAX_RETRIES + 1) with
      | (.error e, delays) =>
          -- the catch block of lines 407-415: errors are not cached
          ({ success := false, error := some e }, cache1, delays)
      | (.ok htmlContent, delays) =>
          if quickWordPressCheck htmlContent then
            let themeInfo := resolvedThemeInfo cssFetch enrichBeforeReturn
              normalizedUrl htmlContent
            if jsFalsyStr themeInfo.name then
              let result : DetectionResult :=
                { success := false, error := some themeNotIdentifiedMsg }
              (result, setCache cache1 now normalizedUrl result, delays)
            else
              let plugins := detectPlugins htmlContent
              let payload : PartialThemeInfo :=
                { themeInfo with plugins := some plugins, isWordPress := some true }
              let result : DetectionResult := { success := true, data := some payload }
              (result, setCache cache1 now normalizedUrl result, delays)
          else
            let result : DetectionResult :=
              { success := false, error := some notWordPressMsg }
            (result, setCache cache1 now normalizedUrl result, delays)

/-! ## Concrete sample inputs and statement-level predicates -/

/-- The well-formed shape of every value of the `DetectionResult` union
type as the code builds it: exactly one variant populated. -/
def resultShape (r : DetectionResult) : Prop :=
  (r.success = true ∧ r.data.isSome ∧ r.error = none) ∨
  (r.success = false ∧ r.data = none ∧ r.error.isSome)

/-- A concrete full cache: 100 entries with pairwise distinct keys, none of
which is a normalized URL. -/
def fullCache : Cache :=
  (List.range 100).map
    (fun i => (List.replicate i 'a', { result := { success := true }, timestamp := 0 }))

/-- Markup with a direct theme stylesheet link (cascade method 1 hits). -/
def wpSampleHtml : Str :=
  "<link href='/wp-content/themes/astra/style.css'>".toList

/-- Markup with no WordPress indicator substring at all. -/
def plainHtml : Str :=
  "just a plain page".toList

/-- Markup with a WordPress indicator (`wp_head`) but nothing any of the
four cascade methods can extract a theme name from. -/
def wpNoThemeHtml : Str :=
  "some page using wp_head only".toList

/-! # Supporting lemmas: the cache as an association list -/

theorem mapGet_mapSet_self (m : Cache) (k : Str) (v : CacheEntry) :
    mapGet (mapSet m k v) k = some v := by
  induction m with
  | nil => simp [mapSet, mapGet]
  | cons p rest ih =>
      obtain ⟨k', v'⟩ := p
      by_cases h : k' = k
      · simp [mapSet, mapGet, h]
      · simp [mapSet, mapGet, h, ih]

theorem mapSet_of_get_none (m : Cache) (k : Str) (v : CacheEntry)
    (h : mapGet m k = none) : mapSet m k v = m ++ [(k, v)] := by
  induction m with
  | nil => simp [mapSet]
  | cons p rest ih =>
      obtain ⟨k', v'⟩ := p
      by_cases hk : k' = k
      · simp [mapGet, hk] at h
      · simp only [mapGet, if_neg hk] at h
        simp [mapSet, hk, ih h]

theorem mapGet_append_of_none (m : Cache) (k : Str) (v : CacheEntry)
    (h : mapGet m k = none) : mapGet (m ++ [(k, v)]) k = some v := by
  induction m with
  | nil => simp [mapGet]
  | cons p rest ih =>
      obtain ⟨k', v'⟩ := p
      by_cases hk : k' = k
      · simp [mapGet, hk] at h
      · simp only [mapGet, if_neg hk] at h
        simp [mapGet, hk, ih h]

theorem length_mapSet_of_get_some (m : Cache) (k : Str) (v w : CacheEntry)
    (h : mapGet m k = some w) : (mapSet m k v).length = m.length := by
  induction m with
  | nil => simp [mapGet] at h
  | cons p rest ih =>
      obtain ⟨k', v'⟩ := p
      by_cases hk : k' = k
      · simp [mapSet, hk]
      · simp only [mapGet, if_neg hk] at h
        simp [mapSet, hk, ih h]

theorem mapGet_eq_none_iff (m : Cache) (k : Str) :
    mapGet m k = none ↔ k ∉ m.map Prod.fst := by
  induction m with
  | nil => simp [mapGet]
  | cons p rest ih =>
      obtain ⟨k', v'⟩ := p
      by_cases hk : k' = k
      · subst hk
        simp [mapGet]
      · have hk2 : ¬ k = k' := fun h => hk h.symm
        simp [mapGet, hk, hk2, ih]

theorem keys_mapDelete_sublist (m : Cache) (k : Str) :
    List.Sublist ((mapDelete m k).map Prod.fst) (m.map Prod.fst) := by
  induction m with
  | nil => simp [mapDelete]
  | cons p rest ih =>
      obtain ⟨k', v'⟩ := p
      by_cases hk : k' = k
      · simp only [mapDelete, if_pos hk, List.map_cons]
        exact List.sublist_cons_self k' (rest.map Prod.fst)
      · simp only [mapDelete, if_neg hk, List.map_cons]
        exact ih.cons₂ k'

theorem mapGet_mapDelete_self (m : Cache) (k : Str)
    (h : (m.map Prod.fst).Nodup) : mapGet (mapDelete m k) k = none := by
  induction m with
  | nil => simp [mapDelete, mapGet]
  | cons p rest ih =>
      obtain ⟨k', v'⟩ := p
      simp only [List.map_cons, List.nodup_cons] at h
      by_cases hk : k' = k
      · simp only [mapDelete, if_pos hk]
        rw [mapGet_eq_none_iff]
        rw [hk] at h
        exact h.1
      · simp only [mapDelete, if_neg hk]
        simp only [mapGet, if_neg hk]
        exact ih h.2

theorem keys_mapSet_of_get_some (m : Cache) (k : Str) (v w : CacheEntry)
    (h : mapGet m k = some w) : (mapSet m k v).map Prod.fst = m.map Prod.fst := by
  induction m with
  | nil => simp [mapGet] at h
  | cons p rest ih =>
      obtain ⟨k', v'⟩ := p
      by_cases hk : k' = k
      · simp [mapSet, hk]
      · simp only [mapGet, if_neg hk] at h
        simp [mapSet, hk, ih h]

/-- When the mapped cache stays within the bound, no eviction happens. -/
theorem setCache_eq_of_small (cache : Cache) (now : Nat) (u : Str) (r : DetectionResult)
    (h : (mapSet cache (getCacheKey u) { result := r, timestamp := now }).length ≤ 100) :
    setCache cache now u r = mapSet cache (getCacheKey u) { result := r, timestamp := now } := by
  simp only [setCache]
  have h2 : ¬ (mapSet cache (getCacheKey u) { result := r, timestamp := now }).length > 100 := by
    omega
  rw [if_neg h2]

/-- Inserting a fresh key into a full (100-entry) cache evicts exactly the
insertion-oldest entry. -/
theorem setCache_eq_of_evict (cache : Cache) (now : Nat) (u : Str) (r : DetectionResult)
    (hg : mapGet cache (getCacheKey u) = none) (hlen : cache.length = 100) :
    setCache cache now u r =
      cache.tail ++ [(getCacheKey u, { result := r, timestamp := now })] := by
  simp only [setCache]
  rw [mapSet_of_get_none cache _ _ hg]
  have hlen2 : (cache ++ [(getCacheKey u, ({ result := r, timestamp := now } : CacheEntry))]).length > 100 := by
    simp [hlen]
  rw [if_pos hlen2]
  cases cache with
  | nil => simp at hlen
  | cons p rest =>
      obtain ⟨k0, v0⟩ := p
      simp only [List.cons_append]
      show mapDelete ((k0, v0) :: (rest ++ [(getCacheKey u, { result := r, timestamp := now })])) k0 = _
      simp [mapDelete]

/-- Within one `setCache`, the entry just written is retrievable: the only
possible eviction removes the insertion-oldest key, which is never the key
just written when the cache respects its size bound. -/
theorem mapGet_setCache_self (cache : Cache) (now : Nat) (u : Str) (r : DetectionResult)
    (hlen : cache.length ≤ 100) :
    mapGet (setCache cache now u r) (getCacheKey u) =
      some { result := r, timestamp := now } := by
  cases hg : mapGet cache (getCacheKey u) with
  | some w =>
      have hl := length_mapSet_of_get_some cache (getCacheKey u) ⟨r, now⟩ w hg
      rw [setCache_eq_of_small cache now u r (by omega)]
      exact mapGet_mapSet_self cache (getCacheKey u) ⟨r, now⟩
  | none =>
      by_cases hsmall : cache.length ≤ 99
      · have hms := mapSet_of_get_none cache (getCacheKey u)
          ({ result := r, timestamp := now } : CacheEntry) hg
        rw [setCache_eq_of_small cache now u r (by rw [hms]; simp; omega)]
        exact mapGet_mapSet_self cache (getCacheKey u) ⟨r, now⟩
      · have hfull : cache.length = 100 := by omega
        rw [setCache_eq_of_evict cache now u r hg hfull]
        cases cache with
        | nil => simp at hfull
        | cons p rest =>
            obtain ⟨k0, v0⟩ := p
            by_cases hk0 : k0 = getCacheKey u
            · simp [mapGet, hk0] at hg
            · simp only [mapGet, if_neg hk0] at hg
              simp only [List.tail_cons]
              exact mapGet_append_of_none rest (getCacheKey u) ⟨r, now⟩ hg

theorem keys_nodup_setCache (cache : Cache) (now : Nat) (u : Str) (r : DetectionResult)
    (hlen : cache.length ≤ 100) (h : (cache.map Prod.fst).Nodup) :
    ((setCache cache now u r).map Prod.fst).Nodup := by
  cases hg : mapGet cache (getCacheKey u) with
  | some w =>
      have hl := length_mapSet_of_get_some cache (getCacheKey u) ⟨r, now⟩ w hg
      rw [setCache_eq_of_small cache now u r (by omega)]
      rw [keys_mapSet_of_get_some cache (getCacheKey u) ⟨r, now⟩ w hg]
      exact h
  | none =>
      have hmem : getCacheKey u ∉ cache.map Prod.fst := (mapGet_eq_none_iff _ _).mp hg
      by_cases hsmall : cache.length ≤ 99
      · have hms := mapSet_of_get_none cache (getCacheKey u)
          ({ result := r, timestamp := now } : CacheEntry) hg
        rw [setCache_eq_of_small cache now u r (by rw [hms]; simp; omega), hms]
        simp [List.nodup_append, h, hmem]
      · have hfull : cache.length = 100 := by omega
        rw [setCache_eq_of_evict cache now u r hg hfull]
        cases cache with
        | nil => simp at hfull
        | cons p rest =>
            obtain ⟨k0, v0⟩ := p
            simp only [List.map_cons, List.nodup_cons] at h
            simp only [List.map_cons, List.mem_cons, not_or] at hmem
            simp only [List.tail_cons, List.map_append]
            simp [List.nodup_append, h.2, hmem.2]

/-! # Claim theorems -/

/-- C3: cache round-trip — for every url `u` and `DetectionResult` `r` (and
any well-formed cache state), `setCache u r` at time `t` followed by
`getFromCache u` at time `t'` within the 5-minute TTL returns a result
equal to `r` (and leaves the cache untouched); once the entry is older than
the TTL, `getFromCache u` returns `null` and the expired entry is deleted
from the cache. -/
theorem cache_roundtrip (cache : Cache) (u : Str) (r : DetectionResult) (t t' : Nat)
    (hlen : cache.length ≤ 100) (hnodup : (cache.map Prod.fst).Nodup) :
    (t' - t < CACHE_DURATION →
      getFromCache (setCache cache t u r) t' u = (some r, setCache cache t u r))
    ∧ (¬ t' - t < CACHE_DURATION →
      (getFromCache (setCache cache t u r) t' u).1 = none ∧
      mapGet (getFromCache (setCache cache t u r) t' u).2 (getCacheKey u) = none) := by
  have hget := mapGet_setCache_self cache t u r hlen
  constructor
  · intro hfresh
    simp [getFromCache, hget, hfresh]
  · intro hexp
    simp only [getFromCache, hget]
    simp only [if_neg hexp]
    refine ⟨by simp, ?_⟩
    exact mapGet_mapDelete_self _ _ (keys_nodup_setCache cache t u r hlen hnodup)

theorem cache_roundtrip_witness :
    getFromCache (setCache [] 0 "example.com".toList { success := true }) 100
        "example.com".toList =
      (some { success := true }, setCache [] 0 "example.com".toList { success := true }) ∧
    (getFromCache (setCache [] 0 "example.com".toList { success := true }) 300000
        "example.com".toList).1 = none := by
  refine ⟨?_, ?_⟩
  · exact (cache_roundtrip [] "example.com".toList { success := true } 0 100
      (by decide) (by decide)).1 (by decide)
  · exact ((cache_roundtrip [] "example.com".toList { success := true } 0 300000
      (by decide) (by decide)).2 (by decide)).1

/-- C4: the result cache is capacity-bounded — starting from a state within
the 100-entry ceiling, a `setCache` never leaves the stored entry count
above 100, and when inserting a fresh key into a full cache pushes the
count past the ceiling, exactly the single insertion-oldest entry is
deleted (insertion-order eviction). -/
theorem cache_capacity_bound (cache : Cache) (u : Str) (r : DetectionResult) (now : Nat) :
    (cache.length ≤ 100 → (setCache cache now u r).length ≤ 100)
    ∧ (cache.length = 100 → mapGet cache (getCacheKey u) = none →
        setCache cache now u r =
          cache.tail ++ [(getCacheKey u, { result := r, timestamp := now })]) := by
  constructor
  · intro hlen
    cases hg : mapGet cache (getCacheKey u) with
    | some w =>
        have hl := length_mapSet_of_get_some cache (getCacheKey u) ⟨r, now⟩ w hg
        rw [setCache_eq_of_small cache now u r (by omega)]
        omega
    | none =>
        by_cases hsmall : cache.length ≤ 99
        · have hms := mapSet_of_get_none cache (getCacheKey u)
            ({ result := r, timestamp := now } : CacheEntry) hg
          rw [setCache_eq_of_small cache now u r (by rw [hms]; simp; omega), hms]
          simp
          omega
        · have hfull : cache.length = 100 := by omega
          rw [setCache_eq_of_evict cache now u r hg hfull]
          cases cache with
          | nil => simp at hfull
          | cons p rest =>
              simp at hfull ⊢
              omega
  · intro hfull hg
    exact setCache_eq_of_evict cache now u r hg hfull

theorem cache_capacity_bound_witness :
    (setCache fullCache 7 "example.com".toList { success := false }).length ≤ 100 ∧
    setCache fullCache 7 "example.com".toList { success := false } =
      fullCache.tail ++
        [(getCacheKey "example.com".toList,
          { result := { success := false }, timestamp := 7 })] := by
  refine ⟨?_, ?_⟩
  · exact (cache_capacity_bound fullCache "example.com".toList { success := false } 7).1
      (by decide)
  · exact (cache_capacity_bound fullCache "example.com".toList { success := false } 7).2
      (by decide) (by decide)

/-! ## Lemmas about `normalizeUrl` -/

theorem not_mem_takeBefore_self (c : Char) (s : Str) : c ∉ takeBefore c s := by
  induction s with
  | nil => simp [takeBefore]
  | cons x rest ih =>
      by_cases hx : x = c
      · simp [takeBefore, hx]
      · simp [takeBefore, hx, ih]
        exact fun h => hx h.symm

theorem mem_takeBefore_sub (a : Char) (c : Char) (s : Str)
    (h : a ∈ takeBefore c s) : a ∈ s := by
  induction s with
  | nil => simp [takeBefore] at h
  | cons x rest ih =>
      by_cases hx : x = c
      · simp [takeBefore, hx] at h
      · simp only [takeBefore, if_neg hx, List.mem_cons] at h
        rcases h with h | h
        · simp [h]
        · simp [ih h]

theorem isPrefix_takeBefore (c : Char) (p : Str) (s : Str) (hp : p <+: s)
    (hc : c ∉ p) : p <+: takeBefore c s := by
  induction p generalizing s with
  | nil => exact List.nil_prefix
  | cons a p' ih =>
      obtain ⟨t, rfl⟩ := hp
      have ha : ¬ a = c := by
        intro h
        exact hc (h ▸ List.mem_cons_self a p')
      simp only [List.cons_append, takeBefore, if_neg ha]
      rw [List.cons_prefix_cons]
      refine ⟨rfl, ih (p' ++ t) (List.prefix_append p' t) ?_⟩
      intro h
      exact hc (List.mem_cons_of_mem a h)

theorem isPrefix_dropLast (p s : Str) (hp : p <+: s) (hlt : p.length < s.length) :
    p <+: s.dropLast := by
  obtain ⟨t, rfl⟩ := hp
  have ht : t ≠ [] := by
    intro h
    rw [h] at hlt
    simp at hlt
  rw [List.dropLast_append_of_ne_nil p ht]
  exact List.prefix_append p t.dropLast

theorem isPrefix_stripTrailingSlash (p s : Str) (hp : p <+: s)
    (hlt : p.length < s.length) : p <+: stripTrailingSlash s := by
  unfold stripTrailingSlash
  by_cases h : s.getLast? = some '/'
  · rw [if_pos h]
    exact isPrefix_dropLast p s hp hlt
  · rw [if_neg h]
    exact hp

theorem scheme_isPrefix_withScheme (url : Str) (h1 : url ≠ [])
    (h2 : url ≠ "http://".toList) (h3 : url ≠ "https://".toList) :
    ("http://".toList <+: withScheme url ∧
      "http://".toList.length < (withScheme url).length) ∨
    ("https://".toList <+: withScheme url ∧
      "https://".toList.length < (withScheme url).length) := by
  unfold withScheme
  by_cases hs : "http://".toList.isPrefixOf url ∨ "https://".toList.isPrefixOf url
  · rw [if_pos hs]
    rcases hs with hs | hs
    · left
      have hpre : "http://".toList <+: url := List.isPrefixOf_iff_prefix.mp hs
      refine ⟨hpre, ?_⟩
      rcases Nat.lt_or_ge "http://".toList.length url.length with h | h
      · exact h
      · exact absurd (hpre.eq_of_length (Nat.le_antisymm hpre.length_le h)).symm h2
    · right
      have hpre : "https://".toList <+: url := List.isPrefixOf_iff_prefix.mp hs
      refine ⟨hpre, ?_⟩
      rcases Nat.lt_or_ge "https://".toList.length url.length with h | h
      · exact h
      · exact absurd (hpre.eq_of_length (Nat.le_antisymm hpre.length_le h)).symm h3
  · rw [if_neg hs]
    right
    refine ⟨List.prefix_append _ _, ?_⟩
    have : url.length ≠ 0 := fun h => h1 (List.eq_nil_of_length_eq_zero h)
    simp
    omega

/-- C2 (amended): the normalized form always has the query string and the
fragment stripped, always carries a scheme (`https://` prepended when
absent) except on the three degenerate inputs `""`, `"http://"`,
`"https://"`, and the three example spellings `example.com`,
`https://example.com`, `https://example.com/` map to the same cache key;
but a trailing slash is stripped only when it is the last character of the
input, not when it precedes a query string or fragment. -/
theorem normalizeUrl_amended (url : Str) (h1 : url ≠ [])
    (h2 : url ≠ "http://".toList) (h3 : url ≠ "https://".toList) :
    ("http://".toList <+: normalizeUrl url ∨ "https://".toList <+: normalizeUrl url) ∧
    '#' ∉ normalizeUrl url ∧ '?' ∉ normalizeUrl url ∧
    normalizeUrl "example.com".toList = normalizeUrl "https://example.com".toList ∧
    normalizeUrl "https://example.com/".toList = normalizeUrl "https://example.com".toList := by
  refine ⟨?_, ?_, ?_, by decide, by decide⟩
  · rcases scheme_isPrefix_withScheme url h1 h2 h3 with ⟨hpre, hlt⟩ | ⟨hpre, hlt⟩
    · left
      unfold normalizeUrl
      refine isPrefix_takeBefore _ _ _ (isPrefix_takeBefore _ _ _ ?_ (by decide)) (by decide)
      exact isPrefix_stripTrailingSlash _ _ hpre hlt
    · right
      unfold normalizeUrl
      refine isPrefix_takeBefore _ _ _ (isPrefix_takeBefore _ _ _ ?_ (by decide)) (by decide)
      exact isPrefix_stripTrailingSlash _ _ hpre hlt
  · unfold normalizeUrl
    intro h
    exact not_mem_takeBefore_self '#' _ (mem_takeBefore_sub _ _ _ h)
  · unfold normalizeUrl
    exact not_mem_takeBefore_self '?' _

theorem normalizeUrl_amended_witness :
    ("http://".toList <+: normalizeUrl "wordpress.org".toList ∨
      "https://".toList <+: normalizeUrl "wordpress.org".toList) ∧
    '#' ∉ normalizeUrl "wordpress.org".toList ∧
    '?' ∉ normalizeUrl "wordpress.org".toList ∧
    normalizeUrl "example.com".toList = normalizeUrl "https://example.com".toList ∧
    normalizeUrl "https://example.com/".toList = normalizeUrl "https://example.com".toList :=
  normalizeUrl_amended "wordpress.org".toList (by decide) (by decide) (by decide)

/-- C2 counterexample: `normalizeUrl` does not strip the trailing slash of
`https://example.com/?utm=1` (the `replace(/\/$/,'')` runs before the
query/fragment are cut off), so this input — equivalent to
`https://example.com` once the query is stripped — maps to a different
cache key: the claimed normal form (trailing slash, query and fragment all
stripped, hence equal keys for equivalent spellings) does not hold. -/
theorem normalizeUrl_trailing_slash_counterexample :
    normalizeUrl "https://example.com/?utm=1".toList = "https://example.com/".toList ∧
    normalizeUrl "https://example.com".toList = "https://example.com".toList ∧
    normalizeUrl "https://example.com/?utm=1".toList ≠
      normalizeUrl "https://example.com".toList ∧
    (normalizeUrl "https://example.com/?utm=1".toList).getLast? = some '/' := by
  refine ⟨by decide, by decide, by decide, by decide⟩

/-! ## Lemmas about `getFromCache` / `detectTheme` -/

theorem mapGet_mem (m : Cache) (k : Str) (e : CacheEntry)
    (h : mapGet m k = some e) : (k, e) ∈ m := by
  induction m with
  | nil => simp [mapGet] at h
  | cons p rest ih =>
      obtain ⟨k', v'⟩ := p
      by_cases hk : k' = k
      · subst hk
        have h2 : v' = e := by simpa [mapGet] using h
        subst h2
        exact List.mem_cons_self _ _
      · simp only [mapGet, if_neg hk] at h
        exact List.mem_cons_of_mem _ (ih h)

theorem getFromCache_of_miss (cache : Cache) (now : Nat) (url : Str)
    (h : mapGet cache (getCacheKey url) = none) :
    getFromCache cache now url = (none, cache) := by
  simp [getFromCache, h]

theorem getFromCache_fst_some (cache : Cache) (now : Nat) (url : Str)
    (r : DetectionResult) (c' : Cache)
    (h : getFromCache cache now url = (some r, c')) :
    ∃ e, mapGet cache (getCacheKey url) = some e ∧ e.result = r := by
  cases hg : mapGet cache (getCacheKey url) with
  | none =>
      rw [getFromCache_of_miss cache now url hg] at h
      simp at h
  | some e =>
      refine ⟨e, rfl, ?_⟩
      simp only [getFromCache, hg] at h
      by_cases hfresh : now - e.timestamp < CACHE_DURATION
      · rw [if_pos hfresh] at h
        have h2 := congrArg Prod.fst h
        simpa using h2
      · rw [if_neg hfresh] at h
        have h2 := congrArg Prod.fst h
        simp at h2

/-- C6: `detectTheme` never throws past the top-level entry point — for
every fetch oracle, enrichment outcome and race resolution, and every
well-formed cache state, it returns a `DetectionResult` value, with all
failures funnelled into the `{success: false, error: message}` shape and
all successes into `{success: true, data: ...}`. -/
theorem detectTheme_never_throws (fetch : Nat → Except Str Str)
    (cssFetch : Except Str Str) (enrich : Bool) (cache : Cache) (now : Nat)
    (siteUrl : Str) (hcache : ∀ p ∈ cache, resultShape p.2.result) :
    resultShape (detectTheme fetch cssFetch enrich cache now siteUrl).1 := by
  rcases hget : getFromCache cache now (normalizeUrl siteUrl) with ⟨res, cache1⟩
  cases res with
  | some cachedResult =>
      have heval : (detectTheme fetch cssFetch enrich cache now siteUrl).1 = cachedResult := by
        simp only [detectTheme, hget]
      rw [heval]
      obtain ⟨e, hge, hres⟩ := getFromCache_fst_some _ _ _ _ _ hget
      exact hres ▸ hcache _ (mapGet_mem _ _ _ hge)
  | none =>
      rcases hfr : fetchWithRetries fetch 0 (MAX_RETRIES + 1) with ⟨fres, delays⟩
      cases fres with
      | error e =>
          have heval : (detectTheme fetch cssFetch enrich cache now siteUrl).1 =
              { success := false, error := some e } := by
            simp only [detectTheme, hget, hfr]
          rw [heval]
          right
          exact ⟨rfl, rfl, by simp⟩
      | ok html =>
          cases hwp : quickWordPressCheck html with
          | false =>
              have heval : (detectTheme fetch cssFetch enrich cache now siteUrl).1 =
                  { success := false, error := some notWordPressMsg } := by
                simp only [detectTheme, hget, hfr, hwp]
                simp
              rw [heval]
              right
              exact ⟨rfl, rfl, by simp⟩
          | true =>
              cases hn : jsFalsyStr (resolvedThemeInfo cssFetch enrich
                  (normalizeUrl siteUrl) html).name with
              | true =>
                  have heval : (detectTheme fetch cssFetch enrich cache now siteUrl).1 =
                      { success := false, error := some themeNotIdentifiedMsg } := by
                    simp only [detectTheme, hget, hfr, hwp, hn]
                    simp
                  rw [heval]
                  right
                  exact ⟨rfl, rfl, by simp⟩
              | false =>
                  have heval : (detectTheme fetch cssFetch enrich cache now siteUrl).1 =
                      { success := true,
                        data := some { resolvedThemeInfo cssFetch enrich
                            (normalizeUrl siteUrl) html with
                          plugins := some (detectPlugins html),
                          isWordPress := some true } } := by
                    simp only [detectTheme, hget, hfr, hwp, hn]
                    simp
                  rw [heval]
                  left
                  exact ⟨rfl, by simp, rfl⟩

theorem detectTheme_never_throws_witness :
    resultShape (detectTheme (fun _ => Except.error "network down".toList)
      (Except.error []) false [] 0 "example.com".toList).1 :=
  detectTheme_never_throws _ _ _ _ _ _ (by simp)

/-- C5: `detectTheme` retries the whole fetch up to a ceiling of
`MAX_RETRIES = 2` retries with linearly increasing backoff delays
(`1000 * retryCount` ms, i.e. `[1000, 2000]`): on a cache miss, a fetch
that fails twice and succeeds on the third attempt (with content on which
the detection pipeline succeeds) yields a success result, while a fetch
that fails on every attempt up to and including the ceiling yields a
non-success result whose error field carries the final underlying
failure's message. -/
theorem detectTheme_retry_backoff (fetch : Nat → Except Str Str)
    (cssFetch : Except Str Str) (enrich : Bool) (cache : Cache) (now : Nat)
    (siteUrl : Str) (c e0 e1 e2 : Str)
    (hmiss : mapGet cache (getCacheKey (normalizeUrl siteUrl)) = none) :
    (fetch 0 = .error e0 → fetch 1 = .error e1 → fetch 2 = .ok c →
      quickWordPressCheck c = true →
      jsFalsyStr (resolvedThemeInfo cssFetch enrich (normalizeUrl siteUrl) c).name = false →
      (detectTheme fetch cssFetch enrich cache now siteUrl).1.success = true ∧
      (detectTheme fetch cssFetch enrich cache now siteUrl).2.2 = [1000, 2000])
    ∧ (fetch 0 = .error e0 → fetch 1 = .error e1 → fetch 2 = .error e2 →
      (detectTheme fetch cssFetch enrich cache now siteUrl).1 =
        { success := false, error := some e2 } ∧
      (detectTheme fetch cssFetch enrich cache now siteUrl).2.2 = [1000, 2000]) := by
  have hget := getFromCache_of_miss cache now (normalizeUrl siteUrl) hmiss
  constructor
  · intro h0 h1 h2 hwp hn
    have hfr : fetchWithRetries fetch 0 (MAX_RETRIES + 1) = (.ok c, [1000, 2000]) := by
      simp [fetchWithRetries, MAX_RETRIES, h0, h1, h2]
    constructor
    · simp only [detectTheme, hget, hfr, hwp, hn]
      simp
    · simp only [detectTheme, hget, hfr, hwp, hn]
      simp
  · intro h0 h1 h2
    have hfr : fetchWithRetries fetch 0 (MAX_RETRIES + 1) = (.error e2, [1000, 2000]) := by
      simp [fetchWithRetries, MAX_RETRIES, h0, h1, h2]
    constructor
    · simp only [detectTheme, hget, hfr]
    · simp only [detectTheme, hget, hfr]

theorem detectTheme_retry_backoff_witness :
    ((detectTheme (fun n => if n = 2 then .ok wpSampleHtml else .error "down".toList)
        (Except.error []) false [] 0 "example.com".toList).1.success = true ∧
      (detectTheme (fun n => if n = 2 then .ok wpSampleHtml else .error "down".toList)
        (Except.error []) false [] 0 "example.com".toList).2.2 = [1000, 2000]) ∧
    ((detectTheme (fun n => if n = 2 then .error "final".toList else .error "down".toList)
        (Except.error []) false [] 0 "example.com".toList).1 =
        { success := false, error := some "final".toList } ∧
      (detectTheme (fun n => if n = 2 then .error "final".toList else .error "down".toList)
        (Except.error []) false [] 0 "example.com".toList).2.2 = [1000, 2000]) := by
  constructor
  · exact (detectTheme_retry_backoff
      (fun n => if n = 2 then .ok wpSampleHtml else .error "down".toList)
      (Except.error []) false [] 0 "example.com".toList
      wpSampleHtml "down".toList "down".toList [] (by decide)).1
      rfl rfl rfl (by decide) (by decide)
  · exact (detectTheme_retry_backoff
      (fun n => if n = 2 then .error "final".toList else .error "down".toList)
      (Except.error []) false [] 0 "example.com".toList
      [] "down".toList "down".toList "final".toList (by decide)).2
      rfl rfl rfl

/-- C1 counterexample: `detectTheme` does persist non-success results.  For
a page with no WordPress indicators, the first call returns a non-success
result and writes it to the cache, and a repeated call within the TTL —
with a fetch oracle that would now produce a fully successful detection —
still returns the cached error instead of re-running detection. -/
theorem error_caching_counterexample :
    (detectTheme (fun _ => .ok plainHtml) (Except.error []) false [] 0
        "example.com".toList).1.success = false ∧
    mapGet (detectTheme (fun _ => .ok plainHtml) (Except.error []) false [] 0
        "example.com".toList).2.1 (getCacheKey "example.com".toList) =
      some { result := { success := false, error := some notWordPressMsg },
             timestamp := 0 } ∧
    (detectTheme (fun _ => .ok wpSampleHtml) (Except.error []) false
        (detectTheme (fun _ => .ok plainHtml) (Except.error []) false [] 0
          "example.com".toList).2.1
        60000 "example.com".toList).1 =
      { success := false, error := some notWordPressMsg } := by
  refine ⟨by decide, by decide, by decide⟩

/-- C1 (amended): only detection attempts that end in a thrown fetch error
are left uncached (so only they re-run on a repeated call); completed
detections are cached via `setCache` whether or not they succeeded — the
non-WordPress outcome and the theme-unidentified outcome (both
`success: false` results) are persisted, and so is the success outcome. -/
theorem error_cache_policy (fetch : Nat → Except Str Str) (cssFetch : Except Str Str)
    (enrich : Bool) (cache : Cache) (now : Nat) (siteUrl : Str) (err : Nat → Str)
    (hmiss : mapGet cache (getCacheKey (normalizeUrl siteUrl)) = none) :
    ((∀ n, fetch n = .error (err n)) →
      (detectTheme fetch cssFetch enrich cache now siteUrl).1 =
        { success := false, error := some (err 2) } ∧
      (detectTheme fetch cssFetch enrich cache now siteUrl).2.1 = cache)
    ∧ (∀ c, fetch 0 = .ok c → quickWordPressCheck c = false →
      (detectTheme fetch cssFetch enrich cache now siteUrl).1 =
        { success := false, error := some notWordPressMsg } ∧
      (detectTheme fetch cssFetch enrich cache now siteUrl).2.1 =
        setCache cache now (normalizeUrl siteUrl)
          { success := false, error := some notWordPressMsg })
    ∧ (∀ c, fetch 0 = .ok c → quickWordPressCheck c = true →
      jsFalsyStr (resolvedThemeInfo cssFetch enrich (normalizeUrl siteUrl) c).name = true →
      (detectTheme fetch cssFetch enrich cache now siteUrl).1 =
        { success := false, error := some themeNotIdentifiedMsg } ∧
      (detectTheme fetch cssFetch enrich cache now siteUrl).2.1 =
        setCache cache now (normalizeUrl siteUrl)
          { success := false, error := some themeNotIdentifiedMsg })
    ∧ (∀ c, fetch 0 = .ok c → quickWordPressCheck c = true →
      jsFalsyStr (resolvedThemeInfo cssFetch enrich (normalizeUrl siteUrl) c).name = false →
      (detectTheme fetch cssFetch enrich cache now siteUrl).1.success = true ∧
      (detectTheme fetch cssFetch enrich cache now siteUrl).2.1 =
        setCache cache now (normalizeUrl siteUrl)
          (detectTheme fetch cssFetch enrich cache now siteUrl).1) := by
  have hget := getFromCache_of_miss cache now (normalizeUrl siteUrl) hmiss
  refine ⟨?_, ?_, ?_, ?_⟩
  · intro hall
    have hfr : fetchWithRetries fetch 0 (MAX_RETRIES + 1) =
        (.error (err 2), [1000, 2000]) := by
      simp [fetchWithRetries, MAX_RETRIES, hall 0, hall 1, hall 2]
    constructor
    · simp only [detectTheme, hget, hfr]
    · simp only [detectTheme, hget, hfr]
  · intro c h0 hwp
    have hfr : fetchWithRetries fetch 0 (MAX_RETRIES + 1) = (.ok c, []) := by
      simp [fetchWithRetries, MAX_RETRIES, h0]
    constructor
    · simp only [detectTheme, hget, hfr, hwp]
      simp
    · simp only [detectTheme, hget, hfr, hwp]
      simp
  · intro c h0 hwp hn
    have hfr : fetchWithRetries fetch 0 (MAX_RETRIES + 1) = (.ok c, []) := by
      simp [fetchWithRetries, MAX_RETRIES, h0]
    constructor
    · simp only [detectTheme, hget, hfr, hwp, hn]
      simp
    · simp only [detectTheme, hget, hfr, hwp, hn]
      simp
  · intro c h0 hwp hn
    have hfr : fetchWithRetries fetch 0 (MAX_RETRIES + 1) = (.ok c, []) := by
      simp [fetchWithRetries, MAX_RETRIES, h0]
    constructor
    · simp only [detectTheme, hget, hfr, hwp, hn]
      simp
    · simp only [detectTheme, hget, hfr, hwp, hn]
      simp

theorem error_cache_policy_witness :
    ((detectTheme (fun _ => .error "down".toList) (Except.error []) false [] 0
        "example.com".toList).1 =
      { success := false, error := some "down".toList } ∧
      (detectTheme (fun _ => .error "down".toList) (Except.error []) false [] 0
        "example.com".toList).2.1 = []) ∧
    ((detectTheme (fun _ => .ok plainHtml) (Except.error []) false [] 0
        "example.com".toList).1 =
      { success := false, error := some notWordPressMsg } ∧
      (detectTheme (fun _ => .ok plainHtml) (Except.error []) false [] 0
        "example.com".toList).2.1 =
      setCache [] 0 (normalizeUrl "example.com".toList)
        { success := false, error := some notWordPressMsg }) ∧
    ((detectTheme (fun _ => .ok wpNoThemeHtml) (Except.error []) false [] 0
        "example.com".toList).1 =
      { success := false, error := some themeNotIdentifiedMsg } ∧
      (detectTheme (fun _ => .ok wpNoThemeHtml) (Except.error []) false [] 0
        "example.com".toList).2.1 =
      setCache [] 0 (normalizeUrl "example.com".toList)
        { success := false, error := some themeNotIdentifiedMsg }) ∧
    ((detectTheme (fun _ => .ok wpSampleHtml) (Except.error []) false [] 0
        "example.com".toList).1.success = true ∧
      (detectTheme (fun _ => .ok wpSampleHtml) (Except.error []) false [] 0
        "example.com".toList).2.1 =
      setCache [] 0 (normalizeUrl "example.com".toList)
        (detectTheme (fun _ => .ok wpSampleHtml) (Except.error []) false [] 0
          "example.com".toList).1) := by
  refine ⟨?_, ?_, ?_, ?_⟩
  · exact (error_cache_policy (fun _ => .error "down".toList) (Except.error []) false [] 0
      "example.com".toList (fun _ => "down".toList) (by decide)).1 (fun _ => rfl)
  · exact (error_cache_policy (fun _ => .ok plainHtml) (Except.error []) false [] 0
      "example.com".toList (fun _ => []) (by decide)).2.1 plainHtml rfl (by decide)
  · exact (error_cache_policy (fun _ => .ok wpNoThemeHtml) (Except.error []) false [] 0
      "example.com".toList (fun _ => []) (by decide)).2.2.1 wpNoThemeHtml rfl
      (by decide) (by decide)
  · exact (error_cache_policy (fun _ => .ok wpSampleHtml) (Except.error []) false [] 0
      "example.com".toList (fun _ => []) (by decide)).2.2.2 wpSampleHtml rfl
      (by decide) (by decide)

/-! ## Inversion lemmas for the matcher combinators -/

theorem scanOpt_eq_some {α : Type} (f : Str → Option α) (s : Str) (r : α)
    (h : scanOpt f s = some r) : ∃ t, f t = some r := by
  induction s with
  | nil => exact ⟨[], h⟩
  | cons c rest ih =>
      cases hf : f (c :: rest) with
      | some r' =>
          have heq : scanOpt f (c :: rest) = some r' := by simp [scanOpt, hf]
          rw [heq] at h
          cases h
          exact ⟨c :: rest, hf⟩
      | none =>
          have heq : scanOpt f (c :: rest) = scanOpt f rest := by simp [scanOpt, hf]
          rw [heq] at h
          exact ih h

theorem lazyThenAcc_eq_some {α : Type} (cls : Char → Bool) (k : Str → Str → Option α)
    (acc s : Str) (r : α) (h : lazyThenAcc cls k acc s = some r) :
    ∃ a t, k a t = some r := by
  induction s generalizing acc with
  | nil => exact ⟨acc, [], h⟩
  | cons c rest ih =>
      cases hk : k acc (c :: rest) with
      | some r' =>
          have heq : lazyThenAcc cls k acc (c :: rest) = some r' := by simp [lazyThenAcc, hk]
          rw [heq] at h
          cases h
          exact ⟨acc, c :: rest, hk⟩
      | none =>
          by_cases hc : cls c
          · have heq : lazyThenAcc cls k acc (c :: rest) =
                lazyThenAcc cls k (acc ++ [c]) rest := by
              simp [lazyThenAcc, hk, hc]
            rw [heq] at h
            exact ih _ h
          · have heq : lazyThenAcc cls k acc (c :: rest) = none := by
              simp [lazyThenAcc, hk, hc]
            rw [heq] at h
            simp at h

theorem greedyThenAcc_eq_some {α : Type} (cls : Char → Bool) (k : Str → Str → Option α)
    (acc s : Str) (r : α) (h : greedyThenAcc cls k acc s = some r) :
    ∃ a t, k a t = some r := by
  induction s generalizing acc with
  | nil => exact ⟨acc, [], h⟩
  | cons c rest ih =>
      by_cases hc : cls c
      · cases hg : greedyThenAcc cls k (acc ++ [c]) rest with
        | some r' =>
            have heq : greedyThenAcc cls k acc (c :: rest) = some r' := by
              simp [greedyThenAcc, hc, hg]
            rw [heq] at h
            cases h
            exact ih _ hg
        | none =>
            have heq : greedyThenAcc cls k acc (c :: rest) = k acc (c :: rest) := by
              simp [greedyThenAcc, hc, hg]
            rw [heq] at h
            exact ⟨acc, c :: rest, h⟩
      · have heq : greedyThenAcc cls k acc (c :: rest) = k acc (c :: rest) := by
          simp [greedyThenAcc, hc]
        rw [heq] at h
        exact ⟨acc, c :: rest, h⟩

theorem boundedLazyThenAcc_eq_some {α : Type} (cls : Char → Bool)
    (k : Str → Str → Option α) (bound : Nat) (acc s : Str) (r : α)
    (h : boundedLazyThenAcc cls k bound acc s = some r) :
    ∃ a t, k a t = some r ∧ a.length ≤ acc.length + bound := by
  induction s generalizing bound acc with
  | nil =>
      cases bound with
      | zero => exact ⟨acc, [], h, by omega⟩
      | succ b => exact ⟨acc, [], h, by omega⟩
  | cons c rest ih =>
      cases bound with
      | zero => exact ⟨acc, c :: rest, h, by omega⟩
      | succ b =>
          cases hk : k acc (c :: rest) with
          | some r' =>
              have heq : boundedLazyThenAcc cls k (b + 1) acc (c :: rest) = some r' := by
                simp [boundedLazyThenAcc, hk]
              rw [heq] at h
              cases h
              exact ⟨acc, c :: rest, hk, by omega⟩
          | none =>
              by_cases hc : cls c
              · have heq : boundedLazyThenAcc cls k (b + 1) acc (c :: rest) =
                    boundedLazyThenAcc cls k b (acc ++ [c]) rest := by
                  simp [boundedLazyThenAcc, hk, hc]
                rw [heq] at h
                obtain ⟨a, t, hkat, hlen⟩ := ih b (acc ++ [c]) h
                refine ⟨a, t, hkat, ?_⟩
                simp at hlen
                omega
              · have heq : boundedLazyThenAcc cls k (b + 1) acc (c :: rest) = none := by
                  simp [boundedLazyThenAcc, hk, hc]
                rw [heq] at h
                simp at h

/-! ## The cascade matchers never capture an empty theme name
(their capture groups are `+`-quantified) -/

theorem m1Tail_snd_ne_nil (acc t : Str) (u nm : Str)
    (h : m1Tail acc t = some (u, nm)) : nm ≠ [] := by
  unfold m1Tail at h
  repeat' split at h
  all_goals simp_all
  all_goals (rintro rfl; simp_all)

theorem method1Match_snd_ne_nil (html : Str) (u nm : Str)
    (h : method1Match html = some (u, nm)) : nm ≠ [] := by
  obtain ⟨t, ht⟩ := scanOpt_eq_some _ _ _ h
  unfold m1TryAt at ht
  repeat' split at ht
  case isTrue =>
    obtain ⟨a, t2, hat⟩ := lazyThenAcc_eq_some _ _ _ _ _ ht
    exact m1Tail_snd_ne_nil _ _ _ _ hat
  all_goals simp_all

theorem m3Tail_snd_ne_nil (acc t : Str) (u nm : Str)
    (h : m3Tail acc t = some (u, nm)) : nm ≠ [] := by
  unfold m3Tail at h
  repeat' split at h
  all_goals simp_all
  all_goals (rintro rfl; simp_all)

theorem method3Match_snd_ne_nil (html : Str) (u nm : Str)
    (h : method3Match html = some (u, nm)) : nm ≠ [] := by
  obtain ⟨t, ht⟩ := scanOpt_eq_some _ _ _ h
  unfold m3TryAt at ht
  repeat' split at ht
  case isTrue =>
    obtain ⟨a, t2, hat⟩ := lazyThenAcc_eq_some _ _ _ _ _ ht
    exact m3Tail_snd_ne_nil _ _ _ _ hat
  all_goals simp_all

theorem method4Match_ne_nil (html : Str) (nm : Str)
    (h : method4Match html = some nm) : nm ≠ [] := by
  obtain ⟨t, ht⟩ := scanOpt_eq_some _ _ _ h
  unfold m4TryAt at ht
  split at ht
  case h_1 => simp at ht
  case h_2 =>
    obtain ⟨a1, t1, h1⟩ := greedyThenAcc_eq_some _ _ _ _ _ ht
    split at h1
    case h_1 => simp at h1
    case h_2 =>
      obtain ⟨a2, t2, h2⟩ := greedyThenAcc_eq_some _ _ _ _ _ h1
      obtain ⟨a3, t3, h3⟩ := greedyThenAcc_eq_some _ _ _ _ _ h2
      repeat' split at h3
      all_goals simp_all
      all_goals (rintro rfl; simp_all)

/-- Every entry the scanning loop accumulates is non-empty (the loop body
only ever adds a segment that passed the `name && ...` truthiness check). -/
theorem segLoop_entries_ne_nil (marker : Str) (cap : Nat) (ex : List Str)
    (fuel : Nat) (s : Str) (acc : List Str) (hacc : ∀ x ∈ acc, x ≠ []) :
    ∀ x ∈ segLoop marker cap ex fuel s acc, x ≠ [] := by
  induction fuel generalizing s acc with
  | zero => simpa [segLoop] using hacc
  | succ f ih =>
      unfold segLoop
      split
      · exact hacc
      · rename_i nm rest heq
        split
        · apply ih
          intro x hx
          unfold dedupStep at hx
          split at hx
          · rename_i hguard
            rcases List.mem_append.mp hx with hmem | hmem
            · exact hacc x hmem
            · simp at hmem
              subst hmem
              exact hguard.1
          · exact hacc x hx
        · exact hacc

/-! ## The most-common-theme pick of cascade method 2 -/

theorem mem_insertByCountDesc (x y : Str × Nat) (l : List (Str × Nat))
    (h : y ∈ insertByCountDesc x l) : y = x ∨ y ∈ l := by
  induction l with
  | nil => simpa [insertByCountDesc] using h
  | cons z zs ih =>
      unfold insertByCountDesc at h
      split at h
      · rcases List.mem_cons.mp h with hz | hz
        · exact Or.inr (by simp [hz])
        · rcases ih hz with h' | h'
          · exact Or.inl h'
          · exact Or.inr (List.mem_cons_of_mem _ h')
      · rcases List.mem_cons.mp h with hz | hz
        · exact Or.inl hz
        · exact Or.inr hz

theorem mem_sortByCountDesc (y : Str × Nat) (l : List (Str × Nat))
    (h : y ∈ sortByCountDesc l) : y ∈ l := by
  induction l with
  | nil => simp [sortByCountDesc] at h
  | cons z zs ih =>
      unfold sortByCountDesc at h
      rcases mem_insertByCountDesc _ _ _ h with h' | h'
      · simp [h']
      · exact List.mem_cons_of_mem _ (ih h')

theorem insertByCountDesc_ne_nil (x : Str × Nat) (l : List (Str × Nat)) :
    insertByCountDesc x l ≠ [] := by
  cases l with
  | nil => simp [insertByCountDesc]
  | cons z zs =>
      unfold insertByCountDesc
      split <;> simp

theorem sortByCountDesc_ne_nil (l : List (Str × Nat)) (h : l ≠ []) :
    sortByCountDesc l ≠ [] := by
  cases l with
  | nil => exact absurd rfl h
  | cons z zs => exact insertByCountDesc_ne_nil z (sortByCountDesc zs)

theorem bumpCount_keys_sub (counts : List (Str × Nat)) (nm : Str) (p : Str × Nat)
    (h : p ∈ bumpCount counts nm) : p.1 = nm ∨ p ∈ counts := by
  induction counts with
  | nil => simp [bumpCount] at h; simp [h]
  | cons q rest ih =>
      obtain ⟨k, n⟩ := q
      unfold bumpCount at h
      split at h
      · rename_i hk
        rcases List.mem_cons.mp h with h' | h'
        · subst h'
          exact Or.inl hk
        · exact Or.inr (List.mem_cons_of_mem _ h')
      · rcases List.mem_cons.mp h with h' | h'
        · exact Or.inr (by simp [h'])
        · rcases ih h' with h'' | h''
          · exact Or.inl h''
          · exact Or.inr (List.mem_cons_of_mem _ h'')

theorem foldl_bumpCount_keys (names : List Str) (acc : List (Str × Nat)) (p : Str × Nat)
    (h : p ∈ names.foldl bumpCount acc) : p ∈ acc ∨ p.1 ∈ names := by
  induction names generalizing acc with
  | nil => exact Or.inl (by simpa using h)
  | cons nm ns ih =>
      simp only [List.foldl_cons] at h
      rcases ih (bumpCount acc nm) h with h' | h'
      · rcases bumpCount_keys_sub acc nm p h' with h'' | h''
        · exact Or.inr (by simp [h''])
        · exact Or.inl h''
      · exact Or.inr (List.mem_cons_of_mem _ h')

theorem themeCounts_fst_mem (names : List Str) (p : Str × Nat)
    (h : p ∈ themeCounts names) : p.1 ∈ names := by
  rcases foldl_bumpCount_keys names [] p h with h' | h'
  · simp at h'
  · exact h'

theorem themeCounts_ne_nil (nm : Str) (ns : List Str) :
    themeCounts (nm :: ns) ≠ [] := by
  unfold themeCounts
  simp only [List.foldl_cons]
  have : ∀ (l : List Str) (acc : List (Str × Nat)), acc ≠ [] →
      l.foldl bumpCount acc ≠ [] := by
    intro l
    induction l with
    | nil => intro acc h; simpa using h
    | cons x xs ih =>
        intro acc h
        simp only [List.foldl_cons]
        apply ih
        cases acc with
        | nil => simp [bumpCount]
        | cons q rest =>
            obtain ⟨k, n⟩ := q
            unfold bumpCount
            split <;> simp
  apply this
  simp [bumpCount]

/-- C7: the detection cascade short-circuits — methods 2 (theme path
frequency), 3 (generic stylesheet pattern) and 4 (body-class marker) each
run only while no theme name has been found, so once method 1 (direct
stylesheet link) matches, the cascade's name and themeUrl are exactly
method 1's captures and the recorded method is exactly `Direct CSS`. -/
theorem cascade_short_circuit (siteUrl html : Str) (u nm : Str)
    (h : method1Match html = some (u, nm)) :
    (advancedThemeDetection siteUrl html).name = some nm ∧
    (advancedThemeDetection siteUrl html).themeUrl = some u ∧
    (advancedThemeDetection siteUrl html).detectionMethod = some directCssLabel := by
  have hne := method1Match_snd_ne_nil html u nm h
  have hfalsy : jsFalsyStr (some nm) = false := by
    cases nm with
    | nil => exact absurd rfl hne
    | cons a l => simp [jsFalsyStr]
  refine ⟨?_, ?_, ?_⟩ <;>
    simp [advancedThemeDetection, advancedThemeDetectionCore, h, hfalsy, joinComma]

/-- C10: the four method labels are mutually exclusive — each run of the
cascade records at most one label, so `detectionMethod` is always exactly
one of `Direct CSS`, `Path Analysis`, `CSS Pattern`, `Body Class` when a
name was found, never a comma-joined list of several, and it is the empty
string (not absent) when no method found a name. -/
theorem cascade_single_label (siteUrl html : Str) :
    ∃ m, (advancedThemeDetection siteUrl html).detectionMethod = some m ∧
      ((advancedThemeDetection siteUrl html).name ≠ none →
        (m = directCssLabel ∨ m = pathAnalysisLabel ∨ m = cssPatternLabel ∨
          m = bodyClassLabel)) ∧
      ((advancedThemeDetection siteUrl html).name = none → m = []) := by
  have hfn : jsFalsyStr (none : Option Str) = true := rfl
  cases h1 : method1Match html with
  | some p =>
      obtain ⟨u, nm⟩ := p
      have hne := method1Match_snd_ne_nil html u nm h1
      have hfalsy : jsFalsyStr (some nm) = false := by
        cases nm with
        | nil => exact absurd rfl hne
        | cons a l => simp [jsFalsyStr]
      refine ⟨directCssLabel, ?_, ?_, ?_⟩ <;>
        simp [advancedThemeDetection, advancedThemeDetectionCore, h1, hfalsy, joinComma]
  | none =>
      cases h2 : extractThemeFromPaths html with
      | cons nm0 rest =>
          have hsne : sortByCountDesc (themeCounts (nm0 :: rest)) ≠ [] :=
            sortByCountDesc_ne_nil _ (themeCounts_ne_nil nm0 rest)
          obtain ⟨mc, sorted', hmc⟩ :
              ∃ mc sorted', sortByCountDesc (themeCounts (nm0 :: rest)) = mc :: sorted' := by
            cases hs : sortByCountDesc (themeCounts (nm0 :: rest)) with
            | nil => exact absurd hs hsne
            | cons a l => exact ⟨a, l, rfl⟩
          have hmem : mc.1 ∈ nm0 :: rest :=
            themeCounts_fst_mem _ _ (mem_sortByCountDesc _ _ (hmc ▸ List.mem_cons_self mc sorted'))
          have hmcne : mc.1 ≠ [] := by
            have hall := segLoop_entries_ne_nil "/wp-content/themes/".toList 5 themeExcluded
              (html.length + 1) html [] (by simp)
            have hin : mc.1 ∈ extractThemeFromPaths html := by rw [h2]; exact hmem
            exact hall _ hin
          have hfalsy2 : jsFalsyStr (some mc.1) = false := by
            cases hm : mc.1 with
            | nil => exact absurd hm hmcne
            | cons a l => simp [jsFalsyStr]
          refine ⟨pathAnalysisLabel, ?_, ?_, ?_⟩ <;>
            simp [advancedThemeDetection, advancedThemeDetectionCore, h1, h2, hmc,
              hfalsy2, hfn, joinComma]
      | nil =>
          cases h3 : method3Match html with
          | some p =>
              obtain ⟨cu, cnm⟩ := p
              have hne3 := method3Match_snd_ne_nil html cu cnm h3
              have hfalsy3 : jsFalsyStr (some cnm) = false := by
                cases cnm with
                | nil => exact absurd rfl hne3
                | cons a l => simp [jsFalsyStr]
              refine ⟨cssPatternLabel, ?_, ?_, ?_⟩ <;>
                simp [advancedThemeDetection, advancedThemeDetectionCore, h1, h2, h3,
                  hfalsy3, hfn, joinComma]
          | none =>
              cases h4 : method4Match html with
              | some bnm =>
                  have hne4 := method4Match_ne_nil html bnm h4
                  have hfalsy4 : jsFalsyStr (some bnm) = false := by
                    cases bnm with
                    | nil => exact absurd rfl hne4
                    | cons a l => simp [jsFalsyStr]
                  refine ⟨bodyClassLabel, ?_, ?_, ?_⟩ <;>
                    simp [advancedThemeDetection, advancedThemeDetectionCore, h1, h2, h3, h4,
                      hfalsy4, hfn, joinComma]
              | none =>
                  refine ⟨[], ?_, ?_, ?_⟩ <;>
                    simp [advancedThemeDetection, advancedThemeDetectionCore, h1, h2, h3, h4,
                      hfn, joinComma]

theorem cascade_short_circuit_witness :
    (advancedThemeDetection "https://example.com".toList wpSampleHtml).name =
      some "astra".toList ∧
    (advancedThemeDetection "https://example.com".toList wpSampleHtml).themeUrl =
      some "/wp-content/themes/astra/style.css".toList ∧
    (advancedThemeDetection "https://example.com".toList wpSampleHtml).detectionMethod =
      some directCssLabel :=
  cascade_short_circuit "https://example.com".toList wpSampleHtml
    "/wp-content/themes/astra/style.css".toList "astra".toList (by decide)

theorem cascade_single_label_witness :
    ∃ m, (advancedThemeDetection "https://example.com".toList plainHtml).detectionMethod =
        some m ∧
      ((advancedThemeDetection "https://example.com".toList plainHtml).name ≠ none →
        (m = directCssLabel ∨ m = pathAnalysisLabel ∨ m = cssPatternLabel ∨
          m = bodyClassLabel)) ∧
      ((advancedThemeDetection "https://example.com".toList plainHtml).name = none →
        m = []) :=
  cascade_single_label "https://example.com".toList plainHtml

/-- C8 (amended): the metadata extractor's 2000-character cap applies to
the matched comment body — the capture of
`/\/\*\s*([\s\S]{0,2000}?)\s*\*\//` is never longer than 2000 characters —
not to a search window over the stylesheet: the scan for the comment is
unbounded (see the counterexample).  Extraction is total: for any input,
including one with no comment block, it returns without error, yielding an
empty record when no header is found. -/
theorem extract_header_amended (s : Str) :
    (headerMatch s = none → extractThemeInfo s = {}) ∧
    (∀ hd, headerMatch s = some hd → hd.length ≤ 2000) := by
  constructor
  · intro h
    simp [extractThemeInfo, h]
  · intro hd hsome
    obtain ⟨t, ht⟩ := scanOpt_eq_some _ _ _ hsome
    unfold headerTryAt at ht
    split at ht
    case h_1 => simp at ht
    case h_2 =>
      obtain ⟨a1, t1, h1⟩ := greedyThenAcc_eq_some _ _ _ _ _ ht
      obtain ⟨a2, t2, h2, hlen⟩ := boundedLazyThenAcc_eq_some _ _ _ _ _ _ h1
      obtain ⟨a3, t3, h3⟩ := greedyThenAcc_eq_some _ _ _ _ _ h2
      split at h3
      case h_1 =>
        injection h3 with h4
        subst h4
        simpa using hlen
      case h_2 => simp at h3

theorem extract_header_amended_witness :
    extractThemeInfo "no comment here".toList = {} ∧ ("a".toList).length ≤ 2000 := by
  constructor
  · exact (extract_header_amended "no comment here".toList).1 (by decide)
  · exact (extract_header_amended "/*a*/".toList).2 "a".toList (by decide)

set_option maxRecDepth 10000 in
/-- C8 counterexample: a metadata header comment that begins at position
2100 — beyond the claimed ~2000-character search window — is still
extracted (`Theme Name: Foo` is found), refuting the claim that the first
block comment is located only within a bounded prefix of the content. -/
theorem header_window_counterexample :
    (extractThemeInfo (List.replicate 2100 'x' ++ "/* Theme Name: Foo */".toList)).name =
      some "Foo".toList ∧
    2000 < 2100 := by
  refine ⟨by decide, by decide⟩

/-! ## The path scanner as a deduplicating fold over its match sequence -/

theorem foldl_cappedStep_of_full (cap : Nat) (ex : List Str) (acc : List Str)
    (ms : List Str) (h : ¬ acc.length < cap) :
    ms.foldl (cappedStep cap ex) acc = acc := by
  induction ms with
  | nil => simp
  | cons m ms ih => simp [List.foldl_cons, cappedStep, h, ih]

theorem segLoop_eq_foldl (marker : Str) (cap : Nat) (ex : List Str) (fuel : Nat)
    (s : Str) (acc : List Str) :
    segLoop marker cap ex fuel s acc =
      (segMatches marker fuel s).foldl (cappedStep cap ex) acc := by
  induction fuel generalizing s acc with
  | zero => simp [segLoop, segMatches]
  | succ f ih =>
      cases hf : findNextSeg marker s with
      | none =>
          rw [show segLoop marker cap ex (f + 1) s acc = acc from by simp [segLoop, hf]]
          rw [show segMatches marker (f + 1) s = [] from by simp [segMatches, hf]]
          simp
      | some p =>
          obtain ⟨nm, rest⟩ := p
          have h1 : segLoop marker cap ex (f + 1) s acc =
              (if acc.length < cap then segLoop marker cap ex f rest (dedupStep ex acc nm)
               else acc) := by
            simp [segLoop, hf]
          have h2 : segMatches marker (f + 1) s = nm :: segMatches marker f rest := by
            simp [segMatches, hf]
          rw [h1, h2, List.foldl_cons]
          by_cases hcap : acc.length < cap
          · rw [if_pos hcap, ih]
            congr 1
            simp [cappedStep, hcap]
          · rw [if_neg hcap]
            rw [show cappedStep cap ex acc nm = acc from by simp [cappedStep, hcap]]
            rw [foldl_cappedStep_of_full cap ex acc _ hcap]

theorem dedupStep_prefix_of (ex : List Str) (acc : List Str) (nm : Str) :
    acc <+: dedupStep ex acc nm := by
  unfold dedupStep
  split
  · exact ⟨[nm], rfl⟩
  · exact List.prefix_rfl

theorem foldl_dedupStep_prefix_of (ex : List Str) (ms : List Str) (acc : List Str) :
    acc <+: ms.foldl (dedupStep ex) acc := by
  induction ms generalizing acc with
  | nil => simp
  | cons m ms ih =>
      simp only [List.foldl_cons]
      exact (dedupStep_prefix_of ex acc m).trans (ih _)

theorem foldl_capped_eq_take (cap : Nat) (ex : List Str) (ms : List Str)
    (acc : List Str) (hacc : acc.length ≤ cap) :
    ms.foldl (cappedStep cap ex) acc = (ms.foldl (dedupStep ex) acc).take cap := by
  induction ms generalizing acc with
  | nil =>
      simp only [List.foldl_nil]
      exact (List.take_of_length_le hacc).symm
  | cons m ms ih =>
      simp only [List.foldl_cons]
      by_cases hlt : acc.length < cap
      · rw [show cappedStep cap ex acc m = dedupStep ex acc m from by simp [cappedStep, hlt]]
        apply ih
        unfold dedupStep
        split
        · simp
          omega
        · exact hacc
      · rw [show cappedStep cap ex acc m = acc from by simp [cappedStep, hlt]]
        rw [foldl_cappedStep_of_full cap ex acc ms hlt]
        have hacceq : acc.length = cap := by omega
        obtain ⟨t, ht⟩ := (dedupStep_prefix_of ex acc m).trans
          (foldl_dedupStep_prefix_of ex ms (dedupStep ex acc m))
        rw [← ht, ← hacceq, List.take_left]

theorem foldl_dedupStep_nodup (ex : List Str) (ms : List Str) (acc : List Str)
    (h : acc.Nodup) : (ms.foldl (dedupStep ex) acc).Nodup := by
  induction ms generalizing acc with
  | nil => simpa
  | cons m ms ih =>
      simp only [List.foldl_cons]
      apply ih
      unfold dedupStep
      split
      · rename_i hg
        have hnm : m ∉ acc := hg.2.2
        simp [List.nodup_append, h, hnm]
      · exact h

theorem foldl_dedupStep_excluded (ex : List Str) (ms : List Str) (acc : List Str)
    (h : ∀ x ∈ acc, x ∉ ex) : ∀ x ∈ ms.foldl (dedupStep ex) acc, x ∉ ex := by
  induction ms generalizing acc with
  | nil => simpa
  | cons m ms ih =>
      simp only [List.foldl_cons]
      apply ih
      intro x hx
      unfold dedupStep at hx
      split at hx
      · rename_i hg
        rcases List.mem_append.mp hx with hmem | hmem
        · exact h x hmem
        · simp at hmem
          subst hmem
          exact hg.2.1
      · exact h x hx

/-- C9: for every markup string, the plugin scan returns the deduplicated
list of plugin directory identifiers in order of first occurrence (the
fold `dedupFirst` over the global match sequence), excluding `index.php`
and `readme.txt`, with length never exceeding 10; the theme-directory scan
likewise returns a deduplicated first-occurrence-order list of at most 5
entries excluding plugins/uploads/cache/mu-plugins. -/
theorem path_scanner_spec (html : Str) :
    detectPlugins html =
      (dedupFirst pluginExcluded
        (segMatches "wp-content/plugins/".toList (html.length + 1) html)).take 10 ∧
    extractThemeFromPaths html =
      (dedupFirst themeExcluded
        (segMatches "/wp-content/themes/".toList (html.length + 1) html)).take 5 ∧
    (detectPlugins html).length ≤ 10 ∧ (detectPlugins html).Nodup ∧
    (∀ p ∈ detectPlugins html, p ∉ pluginExcluded) ∧
    (extractThemeFromPaths html).length ≤ 5 ∧ (extractThemeFromPaths html).Nodup ∧
    (∀ t ∈ extractThemeFromPaths html, t ∉ themeExcluded) := by
  have hp : detectPlugins html =
      (dedupFirst pluginExcluded
        (segMatches "wp-content/plugins/".toList (html.length + 1) html)).take 10 := by
    unfold detectPlugins dedupFirst
    rw [segLoop_eq_foldl, foldl_capped_eq_take 15 _ _ [] (by simp), List.take_take]
    norm_num
  have htm : extractThemeFromPaths html =
      (dedupFirst themeExcluded
        (segMatches "/wp-content/themes/".toList (html.length + 1) html)).take 5 := by
    unfold extractThemeFromPaths dedupFirst
    rw [segLoop_eq_foldl, foldl_capped_eq_take 5 _ _ [] (by simp)]
  refine ⟨hp, htm, ?_, ?_, ?_, ?_, ?_, ?_⟩
  · rw [hp]
    exact List.length_take_le 10 _
  · rw [hp]
    exact ((List.take_sublist 10 _).nodup
      (foldl_dedupStep_nodup _ _ [] (by simp)))
  · rw [hp]
    intro p hp2
    exact foldl_dedupStep_excluded _ _ [] (by simp) p (List.take_subset 10 _ hp2)
  · rw [htm]
    exact List.length_take_le 5 _
  · rw [htm]
    exact ((List.take_sublist 5 _).nodup
      (foldl_dedupStep_nodup _ _ [] (by simp)))
  · rw [htm]
    intro t ht2
    exact foldl_dedupStep_excluded _ _ [] (by simp) t (List.take_subset 5 _ ht2)

theorem path_scanner_spec_witness :
    "yoast".toList ∉ pluginExcluded ∧ "astra".toList ∉ themeExcluded := by
  constructor
  · exact (path_scanner_spec "wp-content/plugins/yoast/a.js".toList).2.2.2.2.1
      "yoast".toList (by decide)
  · exact (path_scanner_spec "/wp-content/themes/astra/style.css".toList).2.2.2.2.2.2.2
      "astra".toList (by decide)

end WPTD
